import Mathlib

/-!
Verification of the Activity Normalization & Conversation Routing Layer of the
hubot-ms-teams adapter (src/MsTeamsAdapter.mjs).  Strings are modelled as
lists of characters; the platform SDK (botbuilder client, turn contexts,
JSON.parse) appears as explicit oracle parameters, so every behaviour of the
adapter's own code is captured as a pure function over those oracles.
-/

/-- Strings are modelled as lists of characters. -/
abbrev Str := List Char

/-! ### Character classes used by the adapter's regexes and by String.trim -/

/-- JS regex word characters, the class [A-Za-z0-9_] consulted by the \b
assertion in the mention patterns. -/
def isWordChar (c : Char) : Bool :=
  decide ((65 ≤ c.toNat ∧ c.toNat ≤ 90) ∨ (97 ≤ c.toNat ∧ c.toNat ≤ 122) ∨
    (48 ≤ c.toNat ∧ c.toNat ≤ 57) ∨ c.toNat = 95)

/-- The characters removed by JavaScript's String.prototype.trim:
WhiteSpace (TAB VT FF SP NBSP ZWNBSP and the Unicode Zs class) together with
the LineTerminator characters (LF C LS PS). -/
def jsWhitespace (c : Char) : Bool :=
  decide (c.toNat = 9 ∨ c.toNat = 10 ∨ c.toNat = 11 ∨ c.toNat = 12 ∨ c.toNat = 13 ∨
    c.toNat = 32 ∨ c.toNat = 160 ∨ c.toNat = 5760 ∨
    (8192 ≤ c.toNat ∧ c.toNat ≤ 8202) ∨ c.toNat = 8232 ∨ c.toNat = 8233 ∨
    c.toNat = 8239 ∨ c.toNat = 8287 ∨ c.toNat = 12288 ∨ c.toNat = 65279)

/-- Characters matched by `.` in a JavaScript regex without the s flag:
everything except the LineTerminator characters LF C LS PS. -/
def isJsDot (c : Char) : Bool :=
  decide (¬ (c.toNat = 10 ∨ c.toNat = 13 ∨ c.toNat = 8232 ∨ c.toNat = 8233))

/-- Case canonicalization performed by the i flag on the mention patterns:
ASCII letters fold together, every other character only matches itself. -/
def canonChar (c : Char) : Nat :=
  if 65 ≤ c.toNat ∧ c.toNat ≤ 90 then c.toNat + 32 else c.toNat

/-- Case-insensitive character comparison used when matching the robot name. -/
def charCIEq (a b : Char) : Bool := decide (canonChar a = canonChar b)

theorem charCIEq_refl (c : Char) : charCIEq c c = true := by
  simp [charCIEq]

/-- Case-insensitively equal characters agree on regex word-character status. -/
theorem charCIEq_isWordChar {a b : Char} (h : charCIEq a b = true) :
    isWordChar a = isWordChar b := by
  simp only [charCIEq, decide_eq_true_eq] at h
  unfold canonChar at h
  simp only [isWordChar, decide_eq_decide]
  split at h <;> split at h <;> omega

/-- Word characters are never JavaScript whitespace. -/
theorem isWordChar_not_ws {c : Char} (h : isWordChar c = true) :
    jsWhitespace c = false := by
  simp only [isWordChar, decide_eq_true_eq] at h
  simp only [jsWhitespace, decide_eq_false_iff_not]
  omega

/-- JavaScript String.prototype.trim. -/
def jsTrim (s : Str) : Str :=
  ((s.dropWhile jsWhitespace).reverse.dropWhile jsWhitespace).reverse

theorem dropWhile_eq_self_of_head {p : Char → Bool} {l : Str}
    (h : ∀ c, l.head? = some c → p c = false) : l.dropWhile p = l := by
  cases l with
  | nil => rfl
  | cons a t =>
    rw [List.dropWhile_cons, h a rfl]
    simp

/-- A list whose first and last characters are not JS whitespace is its own
trim. -/
theorem jsTrim_eq_self {l : Str}
    (h1 : ∀ c, l.head? = some c → jsWhitespace c = false)
    (h2 : ∀ c, l.getLast? = some c → jsWhitespace c = false) : jsTrim l = l := by
  unfold jsTrim
  rw [dropWhile_eq_self_of_head h1]
  rw [dropWhile_eq_self_of_head (by simpa using h2)]
  exact l.reverse_reverse

theorem head_of_dropWhile {p : Char → Bool} :
    ∀ (l : Str) (c : Char), (l.dropWhile p).head? = some c → p c = false
  | [], c, h => by simp [List.dropWhile] at h
  | a :: t, c, h => by
    rw [List.dropWhile_cons] at h
    by_cases hp : p a = true
    · rw [if_pos hp] at h
      exact head_of_dropWhile t c h
    · rw [if_neg hp] at h
      simp only [List.head?_cons, Option.some.injEq] at h
      subst h
      simpa using hp

/-- dropWhile is a suffix of its argument. -/
theorem dropWhile_suffix (p : Char → Bool) : ∀ l : Str, l.dropWhile p <:+ l
  | [] => List.suffix_refl []
  | a :: t => by
    rw [List.dropWhile_cons]
    by_cases hp : p a = true
    · rw [if_pos hp]
      exact (dropWhile_suffix p t).trans (List.suffix_cons a t)
    · rw [if_neg hp]

/-- The head of the trimmed string is not whitespace. -/
theorem jsTrim_head {l : Str} {c : Char} (h : (jsTrim l).head? = some c) :
    jsWhitespace c = false := by
  unfold jsTrim at h
  rw [List.head?_reverse] at h
  set A := l.dropWhile jsWhitespace with hA
  set B := A.reverse.dropWhile jsWhitespace with hB
  obtain ⟨pre, hpre⟩ := dropWhile_suffix jsWhitespace A.reverse
  have hBne : B ≠ [] := by
    intro hnil
    rw [hnil] at h
    simp at h
  have h2 : A.reverse.getLast? = some c := by
    rw [← hpre, List.getLast?_append_of_ne_nil _ hBne]
    exact h
  rw [List.getLast?_reverse] at h2
  exact head_of_dropWhile l c h2

/-- The last character of the trimmed string is not whitespace. -/
theorem jsTrim_getLast {l : Str} {c : Char} (h : (jsTrim l).getLast? = some c) :
    jsWhitespace c = false := by
  unfold jsTrim at h
  rw [List.getLast?_reverse] at h
  exact head_of_dropWhile _ c h

/-! ### The closing-tag regex of the outbound dispatcher -/

/-- Can the regex fragment (.*)> consume a prefix of l, i.e. is there a later
GT on the same line?  Models the tail of the test regex. -/
def findGt : Str → Bool
  | [] => false
  | c :: rest => if c = '>' then true else (isJsDot c && findGt rest)

/-- Does a match of the closing-tag regex start at the first position? -/
def startsClosingTag (l : Str) : Bool :=
  match l with
  | c1 :: c2 :: rest => decide (c1 = '<') && decide (c2 = '/') && findGt rest
  | _ => false

/-- The test performed by the dispatcher's closing-tag regex on a message:
true iff some position starts a closing-tag-shaped substring. -/
def hasClosingTag : Str → Bool
  | [] => false
  | c :: rest => startsClosingTag (c :: rest) || hasClosingTag rest

/-- Specification-side reading of the closing-tag regex: the string contains a
substring LT SOLIDUS mid GT with mid free of line terminators. -/
def ClosingTagShaped (m : Str) : Prop :=
  ∃ pre mid post, m = pre ++ '<' :: '/' :: (mid ++ '>' :: post) ∧
    ∀ c ∈ mid, isJsDot c = true

theorem findGt_iff (l : Str) :
    findGt l = true ↔ ∃ mid post, l = mid ++ '>' :: post ∧ ∀ c ∈ mid, isJsDot c = true := by
  induction l with
  | nil =>
    constructor
    · intro h
      simp [findGt] at h
    · rintro ⟨mid, post, h, -⟩
      exact absurd h (by simp)
  | cons c rest ih =>
    by_cases hc : c = '>'
    · subst hc
      constructor
      · intro _
        exact ⟨[], rest, rfl, by simp⟩
      · intro _
        rw [findGt]
        exact if_pos rfl
    · have hstep : findGt (c :: rest) = (isJsDot c && findGt rest) := by
        rw [findGt, if_neg hc]
      rw [hstep, Bool.and_eq_true, ih]
      constructor
      · rintro ⟨hdot, mid, post, rfl, hmid⟩
        refine ⟨c :: mid, post, rfl, ?_⟩
        intro x hx
        rcases List.mem_cons.1 hx with rfl | hx
        · exact hdot
        · exact hmid x hx
      · rintro ⟨mid, post, heq, hmid⟩
        cases mid with
        | nil =>
          simp only [List.nil_append, List.cons.injEq] at heq
          exact absurd heq.1 hc
        | cons m mid' =>
          simp only [List.cons_append, List.cons.injEq] at heq
          obtain ⟨rfl, heq⟩ := heq
          exact ⟨hmid c (by simp), mid', post, heq, fun x hx => hmid x (by simp [hx])⟩

theorem startsClosingTag_iff (l : Str) :
    startsClosingTag l = true ↔ ∃ rest, l = '<' :: '/' :: rest ∧ findGt rest = true := by
  match l with
  | [] =>
    constructor
    · intro h
      simp [startsClosingTag] at h
    · rintro ⟨rest, h, -⟩
      exact absurd h (by simp)
  | [c] =>
    constructor
    · intro h
      simp [startsClosingTag] at h
    · rintro ⟨rest, h, -⟩
      exact absurd h (by simp)
  | c1 :: c2 :: rest =>
    constructor
    · intro h
      simp only [startsClosingTag, Bool.and_eq_true, decide_eq_true_eq] at h
      exact ⟨rest, by rw [h.1.1, h.1.2], h.2⟩
    · rintro ⟨rest', heq, hgt⟩
      simp only [List.cons.injEq] at heq
      obtain ⟨rfl, rfl, rfl⟩ := heq
      simpa [startsClosingTag] using hgt

theorem hasClosingTag_iff (l : Str) : hasClosingTag l = true ↔ ClosingTagShaped l := by
  induction l with
  | nil =>
    constructor
    · intro h
      simp [hasClosingTag] at h
    · rintro ⟨pre, mid, post, h, -⟩
      exact absurd h (by simp)
  | cons c rest ih =>
    have hstep : hasClosingTag (c :: rest) = (startsClosingTag (c :: rest) || hasClosingTag rest) := rfl
    rw [hstep, Bool.or_eq_true, ih, startsClosingTag_iff]
    constructor
    · rintro (⟨rest', heq, hgt⟩ | ⟨pre, mid, post, rfl, hmid⟩)
      · obtain ⟨mid, post, rfl, hmid⟩ := (findGt_iff rest').1 hgt
        exact ⟨[], mid, post, by rw [heq]; rfl, hmid⟩
      · exact ⟨c :: pre, mid, post, rfl, hmid⟩
    · rintro ⟨pre, mid, post, heq, hmid⟩
      cases pre with
      | nil =>
        left
        refine ⟨mid ++ '>' :: post, by simpa using heq, (findGt_iff _).2 ⟨mid, post, rfl, hmid⟩⟩
      | cons p pre' =>
        simp only [List.cons_append, List.cons.injEq] at heq
        obtain ⟨rfl, heq⟩ := heq
        exact Or.inr ⟨pre', mid, post, heq, hmid⟩

/-! ### Outgoing message classification (sendWithDelegate / sendToRoom loops) -/

/-- botbuilder TextFormatTypes. -/
inductive TextFormat where
  | markdown
  | xml
  | plain
deriving DecidableEq

/-- A botbuilder attachment, as produced by CardFactory.adaptiveCard. -/
structure Attachment (J : Type) where
  contentType : String
  content : J
deriving DecidableEq

/-- CardFactory.adaptiveCard wraps a parsed JSON value into an adaptive-card
attachment. -/
def adaptiveCard {J : Type} (card : J) : Attachment J :=
  ⟨"application/vnd.microsoft.card.adaptive", card⟩

/-- The activity eventually handed to sendActivity: either a text message
with an optional textFormat, or an attachments-only payload. -/
inductive OutMessage (J : Type) where
  | text (content : Str) (textFormat : Option TextFormat)
  | attachments (items : List (Attachment J))
deriving DecidableEq

/-- MessageFactory.text: a text activity with no textFormat set. -/
def messageFactoryText {J : Type} (s : Str) : OutMessage J :=
  .text s none

/-- Per-string classification performed identically in sendWithDelegate and in
the sendToRoom cache-hit loop: build a text message, default its textFormat to
Markdown, upgrade to Xml when the closing-tag regex tests true, then attempt
JSON.parse (modelled by the oracle pj) and, on success, replace the whole
message by a single adaptive-card attachment. -/
def classifyMessage {J : Type} (pj : Str → Option J) (message : Str) : OutMessage J :=
  let fmt := if hasClosingTag message then TextFormat.xml else TextFormat.markdown
  match pj message with
  | some card => .attachments [adaptiveCard card]
  | none => .text message (some fmt)

/-- Result of one platform sendActivity call: a resolved promise carrying an
optional (possibly falsy) response, or a thrown error with an optional HTTP
statusCode. -/
inductive SendOutcome (R : Type) where
  | ok (response : Option R)
  | thrown (statusCode : Option Nat)
deriving DecidableEq

/-- What one delivery loop produced: the responses pushed onto the results
array, the activities handed to sendActivity in order, and the final oracle
state. -/
structure LoopResult (J R D : Type) where
  responses : List R
  attempted : List (OutMessage J)
  finalState : D
deriving DecidableEq

/-- The delivery loop of the sendToRoom cache-hit path (the body of the
continueConversation callback): for each message in order, classify it, call
context.sendActivity, push a truthy response onto the results, and swallow
any thrown error. -/
def roomSendLoop {J R D : Type} (pj : Str → Option J)
    (step : D → OutMessage J → SendOutcome R × D) : D → List Str → LoopResult J R D
  | d, [] => ⟨[], [], d⟩
  | d, message :: rest =>
    let teamsMessage := classifyMessage pj message
    let (outcome, d') := step d teamsMessage
    let tail := roomSendLoop pj step d' rest
    match outcome with
    | .ok (some response) => ⟨response :: tail.responses, teamsMessage :: tail.attempted, tail.finalState⟩
    | .ok none => ⟨tail.responses, teamsMessage :: tail.attempted, tail.finalState⟩
    | .thrown _ => ⟨tail.responses, teamsMessage :: tail.attempted, tail.finalState⟩

/-- delegate.sendActivity where the delegate may be undefined (envelope.user
present but carrying no message handle): calling through undefined throws a
TypeError, which the surrounding try/catch swallows. -/
def callSendActivity {J R D H : Type} (act : H → D → OutMessage J → SendOutcome R × D)
    (delegate : Option H) (d : D) (msg : OutMessage J) : SendOutcome R × D :=
  match delegate with
  | some h => act h d msg
  | none => (.thrown none, d)

/-- sendWithDelegate: identical per-message classification and
failure-swallowing loop, delivering on the given delegate handle. -/
def sendWithDelegate {J R D H : Type} (pj : Str → Option J)
    (act : H → D → OutMessage J → SendOutcome R × D) (delegate : Option H) :
    D → List Str → LoopResult J R D
  | d, [] => ⟨[], [], d⟩
  | d, message :: rest =>
    let teamsMessage := classifyMessage pj message
    let (outcome, d') := callSendActivity act delegate d teamsMessage
    let tail := sendWithDelegate pj act delegate d' rest
    match outcome with
    | .ok (some response) => ⟨response :: tail.responses, teamsMessage :: tail.attempted, tail.finalState⟩
    | .ok none => ⟨tail.responses, teamsMessage :: tail.attempted, tail.finalState⟩
    | .thrown _ => ⟨tail.responses, teamsMessage :: tail.attempted, tail.finalState⟩

/-- Specification-side list of outcomes obtained by attempting every message in
order against the stateful platform oracle. -/
def runOutcomes {J R D : Type} (pj : Str → Option J)
    (step : D → OutMessage J → SendOutcome R × D) : D → List Str → List (SendOutcome R)
  | _, [] => []
  | d, message :: rest =>
    let (outcome, d') := step d (classifyMessage pj message)
    outcome :: runOutcomes pj step d' rest

/-- The responses that survive into the results array: exactly the truthy
responses of successful sends. -/
def collectResponses {R : Type} : List (SendOutcome R) → List R
  | [] => []
  | .ok (some r) :: rest => r :: collectResponses rest
  | .ok none :: rest => collectResponses rest
  | .thrown _ :: rest => collectResponses rest

/-! ### Rooms, the conversation reference cache, and sendToRoom -/

structure Channel where
  id : Str
deriving DecidableEq

structure ChannelData where
  channel : Channel
deriving DecidableEq

/-- The room descriptor handed to sendToRoom; the cache key is
room.channelData.channel.id. -/
structure Room where
  channelData : ChannelData
deriving DecidableEq

/-- The adapter's process-wide conversationReferences map. -/
structure AdapterState (C : Type) where
  conversationReferences : Str → Option C

/-- Assignment this.conversationReferences[key] = ref. -/
def cacheUpsert {C : Type} (st : AdapterState C) (key : Str) (ref : C) : AdapterState C :=
  ⟨fun k => if k = key then some ref else st.conversationReferences k⟩

/-- Environment-sourced configuration consumed by sendToRoom. -/
structure TeamsConfig where
  serviceUrlOverride : Str
  tenantId : Str
  appId : Str
  robotName : Str
deriving DecidableEq

/-- process.env.TEAMS_BOT_SERVICE_URL falling back (on falsy value) to the
smba URL built from the tenant id. -/
def effectiveServiceUrl (cfg : TeamsConfig) : Str :=
  if cfg.serviceUrlOverride = [] then
    "https://smba.trafficmanager.net/amer/".data ++ cfg.tenantId ++ "/".data
  else cfg.serviceUrlOverride

/-- strings.join with a newline separator. -/
def joinNl : List Str → Str
  | [] => []
  | [s] => s
  | s :: rest => s ++ '\n' :: joinNl rest

/-- The conversationParameters record built on a cache miss. -/
structure ConversationParameters (J : Type) where
  isGroup : Bool
  botId : Str
  botName : Str
  serviceUrl : Str
  channelData : ChannelData
  activity : OutMessage J
  tenantId : Str
deriving DecidableEq

/-- The turn context handed to the createConversationAsync confirmation
callback; conversationId and conversation model
turnContext.activity.conversation.id and turnContext.activity.conversation. -/
structure CreatedTurnCtx (C : Type) where
  conversationId : Str
  conversation : C
deriving DecidableEq

/-- The confirmation callback of the cache-miss path: upsert the new
conversation's id into the cache, then send the joined message text into the
new conversation (returned as the sent text). -/
def onConversationCreated {C : Type} (strings : List Str) (tc : CreatedTurnCtx C)
    (st : AdapterState C) : AdapterState C × Str :=
  (cacheUpsert st tc.conversationId tc.conversation, joinNl strings)

inductive EventName where
  | send
  | reply
deriving DecidableEq

/-- Everything sendToRoom does: a cache miss creates a proactive conversation
(fire and forget, empty result list, no event); a cache hit resumes the cached
reference, runs the delivery loop and emits a send event with the results. -/
inductive RoomSendResult (J R C D : Type) where
  | created (params : ConversationParameters J)
      (onCreated : CreatedTurnCtx C → AdapterState C → AdapterState C × Str)
      (responses : List R)
  | resumed (usedReference : C) (loop : LoopResult J R D) (emitted : EventName × List R)

/-- sendToRoom: look the room's channel id up in the conversation reference
cache; on a miss build conversationParameters seeded with the joined message
text, hand the confirmation callback to createConversationAsync and return the
empty result list; on a hit resume the conversation and run the per-message
delivery loop. -/
def sendToRoom {J R C D : Type} (cfg : TeamsConfig) (pj : Str → Option J)
    (roomStep : D → OutMessage J → SendOutcome R × D) (d : D)
    (st : AdapterState C) (room : Room) (strings : List Str) : RoomSendResult J R C D :=
  match st.conversationReferences room.channelData.channel.id with
  | none =>
    .created
      { isGroup := true
        botId := cfg.appId
        botName := cfg.robotName
        serviceUrl := effectiveServiceUrl cfg
        channelData := room.channelData
        activity := messageFactoryText (joinNl strings)
        tenantId := cfg.tenantId }
      (onConversationCreated strings)
      []
  | some conversationReference =>
    let loop := roomSendLoop pj roomStep d strings
    .resumed conversationReference loop (.send, loop.responses)

/-! ### send and reply -/

/-- The user descriptor on an envelope; message is the live turn handle and
may be absent. -/
structure UserDesc (H : Type) where
  message : Option H
deriving DecidableEq

/-- The envelope handed to send / reply. -/
structure Envelope (H : Type) where
  room : Option Room
  user : Option (UserDesc H)
deriving DecidableEq

/-- reply dereferences envelope.user.message unconditionally: an absent user
is a TypeError thrown before any delivery. -/
inductive AccessError where
  | userUndefined
deriving DecidableEq

/-- What send produced: delegation to the room-push path, a direct delivery on
the user's live turn handle together with the emitted send event, or the
TypeError from dereferencing an absent user. -/
inductive SendOutput (J R C D H : Type) where
  | roomPath (result : RoomSendResult J R C D)
  | direct (loop : LoopResult J R D) (emitted : EventName × Envelope H × List R)
  | userAccessError

/-- send: if envelope.room is present and envelope.user is absent, delegate to
sendToRoom; otherwise deliver on envelope.user.message via sendWithDelegate and
emit a send event with the envelope and the responses. -/
def send {J R C D H : Type} (cfg : TeamsConfig) (pj : Str → Option J)
    (act : H → D → OutMessage J → SendOutcome R × D)
    (roomStep : D → OutMessage J → SendOutcome R × D) (d : D) (st : AdapterState C)
    (envelope : Envelope H) (strings : List Str) : SendOutput J R C D H :=
  match envelope.room, envelope.user with
  | some room, none => .roomPath (sendToRoom cfg pj roomStep d st room strings)
  | _, some user =>
    let loop := sendWithDelegate pj act user.message d strings
    .direct loop (.send, envelope, loop.responses)
  | none, none => .userAccessError

/-- reply: deliver on envelope.user.message via sendWithDelegate and emit a
reply event; envelope.user is dereferenced unconditionally. -/
def reply {J R D H : Type} (pj : Str → Option J)
    (act : H → D → OutMessage J → SendOutcome R × D) (d : D)
    (envelope : Envelope H) (strings : List Str) :
    Except AccessError (LoopResult J R D × (EventName × Envelope H × List R)) :=
  match envelope.user with
  | none => .error .userUndefined
  | some user =>
    let loop := sendWithDelegate pj act user.message d strings
    .ok (loop, (.reply, envelope, loop.responses))

/-! ### The ingress endpoint -/

structure ConversationInfo where
  id : Str
deriving DecidableEq

/-- The inbound activity after the platform SDK parsed the request. -/
structure InboundActivity where
  conversation : ConversationInfo
deriving DecidableEq

structure HttpResponse where
  status : Nat
  body : String
deriving DecidableEq

/-- Outcome of one POST to the ingress endpoint: final adapter state, HTTP
response, and the invocation of the registered activity handler (the cache
state it was given and the activity), if the handler was reached. -/
structure PostOutcome (C E : Type) where
  state : AdapterState C
  response : HttpResponse
  handlerCalledWith : Option (AdapterState C × InboundActivity)

/-- The POST route handler of run(): normalize the body, let the platform
client process it (processAuth models client.process up to the point where it
invokes the turn callback, failing when processing throws before that), then
inside the turn callback upsert the conversation reference extracted from the
turn (getConvRef models TurnContext.getConversationReference) under the
activity's conversation id BEFORE running the registered activity handler, and
answer 200 ok; any exception escaping turn processing is caught at the
endpoint boundary and answered with 500 service error. -/
def postEndpoint {B C E : Type} (normalize : B → B)
    (processAuth : B → Except E InboundActivity)
    (getConvRef : InboundActivity → C)
    (handlerRun : AdapterState C → InboundActivity → Except E (AdapterState C))
    (st : AdapterState C) (body : B) : PostOutcome C E :=
  let nbody := normalize body
  match processAuth nbody with
  | .error _ => ⟨st, ⟨500, "service error"⟩, none⟩
  | .ok activity =>
    let conversationReference := getConvRef activity
    let st' := cacheUpsert st activity.conversation.id conversationReference
    match handlerRun st' activity with
    | .error _ => ⟨st', ⟨500, "service error"⟩, some (st', activity)⟩
    | .ok st'' => ⟨st'', ⟨200, "ok"⟩, some (st', activity)⟩

/-! ### The mention normalizer -/

/-- Is the character at a position (given as the list starting there) a word
character?  End of string counts as non-word, as for the \b assertion. -/
def headIsWord : Str → Bool
  | [] => false
  | c :: _ => isWordChar c

/-- Is the last character of the list a word character?  An empty list (start
of string, or a lone AT before the position) counts as non-word. -/
def lastIsWord (l : Str) : Bool :=
  match l.getLast? with
  | some c => isWordChar c
  | none => false

/-- The \b assertion between a consumed prefix (whose last character's word
status is prevIsWord) and the remainder rem: a boundary iff exactly one side
is a word character. -/
def boundaryOk (prevIsWord : Bool) (rem : Str) : Bool :=
  prevIsWord != headIsWord rem

/-- Case-insensitive literal match of name (the escaped robot name: escaping
with escapeRegex makes every character of the pattern literal) against a
prefix of s; returns the consumed input characters and the remainder. -/
def matchCIConsume : Str → Str → Option (Str × Str)
  | [], s => some ([], s)
  | _ :: _, [] => none
  | n :: ns, c :: cs =>
    if charCIEq c n = true then
      match matchCIConsume ns cs with
      | some (consumed, rem) => some (c :: consumed, rem)
      | none => none
    else none

/-- The test of the anchored pattern AT name \b (case-insensitive) on the
trimmed input: some (matched, rem) when the pattern matches, where matched is
the matched substring of the input (AT plus the consumed case-variant of the
name) and rem the remainder after the match. -/
def mentionMatch (name trimmed : Str) : Option (Str × Str) :=
  match trimmed with
  | c :: afterAt =>
    if c = '@' then
      match matchCIConsume name afterAt with
      | some (consumed, rem) =>
        if boundaryOk (lastIsWord ('@' :: consumed)) rem = true
        then some ('@' :: consumed, rem) else none
      | none => none
    else none
  | [] => none

/-- The test of the anchored bare pattern name \b on the trimmed input. -/
def bareMatch (name trimmed : Str) : Option (Str × Str) :=
  match matchCIConsume name trimmed with
  | some (consumed, rem) =>
    if boundaryOk (lastIsWord consumed) rem = true then some (consumed, rem) else none
  | none => none

/-- ECMAScript GetSubstitution for a string replacement under a pattern with
no capture groups and no named groups, scanning the replacement text: DOLLAR
DOLLAR yields a dollar, DOLLAR AMPERSAND the matched substring, DOLLAR
BACKTICK the text before the match, DOLLAR QUOTE the text after the match;
any other dollar (including dollar-digit, which with zero captures is kept
verbatim) is copied literally and scanning resumes at the next character. -/
def getSubstitution (matched before after : Str) : Str → Str
  | [] => []
  | c :: rest =>
    if c = '$' then
      match rest with
      | [] => ['$']
      | c2 :: rest2 =>
        if c2 = '$' then '$' :: getSubstitution matched before after rest2
        else if c2 = '&' then matched ++ getSubstitution matched before after rest2
        else if c2 = Char.ofNat 96 then before ++ getSubstitution matched before after rest2
        else if c2 = Char.ofNat 39 then after ++ getSubstitution matched before after rest2
        else '$' :: getSubstitution matched before after (c2 :: rest2)
    else c :: getSubstitution matched before after rest

/-- Does the replacement text contain one of the substitution patterns that
GetSubstitution expands (DOLLAR DOLLAR, DOLLAR AMPERSAND, DOLLAR BACKTICK,
DOLLAR QUOTE)? -/
def hasSubstPattern : Str → Bool
  | [] => false
  | c :: rest =>
    if c = '$' then
      match rest with
      | [] => false
      | c2 :: rest2 =>
        if c2 = '$' ∨ c2 = '&' ∨ c2 = Char.ofNat 96 ∨ c2 = Char.ofNat 39 then true
        else hasSubstPattern (c2 :: rest2)
    else hasSubstPattern rest

/-- The mention normalizer: with a falsy robot name return the trimmed text;
with an empty trimmed input return AT name alone; replace an existing
case-insensitive AT name prefix (word-boundary-terminated) by the replacement
text AT name (subject to GetSubstitution, with empty text before the anchored
match and rem after it); likewise for a bare name prefix; otherwise prepend
AT name and a space. -/
def ensureMentionPrefix (text robotName : Str) : Str :=
  if robotName = [] then jsTrim text
  else
    let trimmed := jsTrim text
    if trimmed = [] then '@' :: robotName
    else
      match mentionMatch robotName trimmed with
      | some (matched, rem) => getSubstitution matched [] rem ('@' :: robotName) ++ rem
      | none =>
        match bareMatch robotName trimmed with
        | some (matched, rem) => getSubstitution matched [] rem ('@' :: robotName) ++ rem
        | none => '@' :: (robotName ++ ' ' :: trimmed)

/-! ### Support lemmas for the mention normalizer -/

theorem getLast?_eq_none_iff {l : Str} : l.getLast? = none ↔ l = [] := by
  cases l with
  | nil => simp
  | cons a t => simp [List.getLast?]

theorem lastIsWord_extract {r : Str} (hw : lastIsWord r = true) :
    ∃ c, r.getLast? = some c ∧ isWordChar c = true := by
  unfold lastIsWord at hw
  cases hg : r.getLast? with
  | none => rw [hg] at hw; simp at hw
  | some c => rw [hg] at hw; exact ⟨c, rfl, hw⟩

theorem lastIsWord_ne_nil {r : Str} (hw : lastIsWord r = true) : r ≠ [] := by
  intro h
  subst h
  simp [lastIsWord] at hw

theorem lastIsWord_cons_ne {c : Char} {l : Str} (h : l ≠ []) :
    lastIsWord (c :: l) = lastIsWord l := by
  cases l with
  | nil => exact absurd rfl h
  | cons x xs => simp [lastIsWord, List.getLast?_cons_cons]

theorem lastIsWord_append_ne {a b : Str} (h : b ≠ []) :
    lastIsWord (a ++ b) = lastIsWord b := by
  simp [lastIsWord, List.getLast?_append_of_ne_nil _ h]

theorem forall2_lastIsWord {con name : Str}
    (h : List.Forall₂ (fun c n => charCIEq c n = true) con name) :
    lastIsWord con = lastIsWord name := by
  induction h with
  | nil => rfl
  | @cons c n con' name' hcn htail ih =>
    cases con' with
    | nil =>
      cases htail
      show lastIsWord [c] = lastIsWord [n]
      simp only [lastIsWord, List.getLast?_singleton]
      exact charCIEq_isWordChar hcn
    | cons x xs =>
      cases name' with
      | nil => cases htail
      | cons y ys =>
        rw [show lastIsWord (c :: x :: xs) = lastIsWord (x :: xs) from lastIsWord_cons_ne (by simp),
          show lastIsWord (n :: y :: ys) = lastIsWord (y :: ys) from lastIsWord_cons_ne (by simp)]
        exact ih

theorem matchCIConsume_sound {name : Str} :
    ∀ {s con rem : Str}, matchCIConsume name s = some (con, rem) →
      s = con ++ rem ∧ List.Forall₂ (fun c n => charCIEq c n = true) con name := by
  induction name with
  | nil =>
    intro s con rem h
    simp only [matchCIConsume, Option.some.injEq, Prod.mk.injEq] at h
    obtain ⟨rfl, rfl⟩ := h
    exact ⟨rfl, List.Forall₂.nil⟩
  | cons n ns ih =>
    intro s con rem h
    cases s with
    | nil => simp [matchCIConsume] at h
    | cons c cs =>
      simp only [matchCIConsume] at h
      by_cases hci : charCIEq c n = true
      · rw [if_pos hci] at h
        cases hm : matchCIConsume ns cs with
        | none => rw [hm] at h; simp at h
        | some pr =>
          obtain ⟨con', rem'⟩ := pr
          rw [hm] at h
          simp only [Option.some.injEq, Prod.mk.injEq] at h
          obtain ⟨h1, h2⟩ := h
          subst h1
          subst h2
          obtain ⟨hs, hf⟩ := ih hm
          exact ⟨by rw [hs, List.cons_append], List.Forall₂.cons hci hf⟩
      · rw [if_neg hci] at h
        simp at h

theorem matchCIConsume_of_forall2 {pre name : Str}
    (hf : List.Forall₂ (fun c n => charCIEq c n = true) pre name) (rest : Str) :
    matchCIConsume name (pre ++ rest) = some (pre, rest) := by
  induction hf with
  | nil => rfl
  | @cons c n pre' name' hcn htail ih =>
    simp only [List.cons_append, matchCIConsume, if_pos hcn, List.append_eq, ih]

theorem forall2_ciEq_refl (r : Str) :
    List.Forall₂ (fun c n => charCIEq c n = true) r r := by
  induction r with
  | nil => exact List.Forall₂.nil
  | cons c cs ih => exact List.Forall₂.cons (charCIEq_refl c) ih

theorem hasSubstPattern_cons_ne {c : Char} (hc : c ≠ '$') (rest : Str) :
    hasSubstPattern (c :: rest) = hasSubstPattern rest := by
  conv_lhs => unfold hasSubstPattern
  rw [if_neg hc]

theorem hasSubstPattern_dollar (c2 : Char) (rest2 : Str) :
    hasSubstPattern ('$' :: c2 :: rest2) =
      if c2 = '$' ∨ c2 = '&' ∨ c2 = Char.ofNat 96 ∨ c2 = Char.ofNat 39 then true
      else hasSubstPattern (c2 :: rest2) := by
  conv_lhs => unfold hasSubstPattern
  rw [if_pos rfl]

theorem getSubstitution_cons_ne (matched before after : Str) {c : Char} (hc : c ≠ '$')
    (rest : Str) :
    getSubstitution matched before after (c :: rest) =
      c :: getSubstitution matched before after rest := by
  conv_lhs => unfold getSubstitution
  rw [if_neg hc]

theorem getSubstitution_dollar (matched before after : Str) (c2 : Char) (rest2 : Str) :
    getSubstitution matched before after ('$' :: c2 :: rest2) =
      if c2 = '$' then '$' :: getSubstitution matched before after rest2
      else if c2 = '&' then matched ++ getSubstitution matched before after rest2
      else if c2 = Char.ofNat 96 then before ++ getSubstitution matched before after rest2
      else if c2 = Char.ofNat 39 then after ++ getSubstitution matched before after rest2
      else '$' :: getSubstitution matched before after (c2 :: rest2) := by
  conv_lhs => unfold getSubstitution
  rw [if_pos rfl]

/-- A replacement text free of substitution patterns is copied verbatim by
GetSubstitution. -/
theorem getSubstitution_literal {repl : Str} (h : hasSubstPattern repl = false)
    (matched before after : Str) :
    getSubstitution matched before after repl = repl := by
  induction repl with
  | nil => rfl
  | cons c rest ih =>
    by_cases hc : c = '$'
    · subst hc
      cases rest with
      | nil => rfl
      | cons c2 rest2 =>
        rw [hasSubstPattern_dollar] at h
        by_cases hsp : c2 = '$' ∨ c2 = '&' ∨ c2 = Char.ofNat 96 ∨ c2 = Char.ofNat 39
        · rw [if_pos hsp] at h
          simp at h
        · rw [if_neg hsp] at h
          push_neg at hsp
          obtain ⟨hn1, hn2, hn3, hn4⟩ := hsp
          rw [getSubstitution_dollar, if_neg hn1, if_neg hn2, if_neg hn3, if_neg hn4, ih h]
    · rw [hasSubstPattern_cons_ne hc] at h
      rw [getSubstitution_cons_ne matched before after hc rest, ih h]

theorem mentionMatch_some {name trimmed matched rem : Str}
    (h : mentionMatch name trimmed = some (matched, rem)) :
    ∃ consumed, matched = '@' :: consumed ∧ trimmed = '@' :: (consumed ++ rem) ∧
      List.Forall₂ (fun c n => charCIEq c n = true) consumed name ∧
      boundaryOk (lastIsWord ('@' :: consumed)) rem = true := by
  cases trimmed with
  | nil => simp [mentionMatch] at h
  | cons c afterAt =>
    simp only [mentionMatch] at h
    by_cases hc : c = '@'
    · subst hc
      rw [if_pos rfl] at h
      cases hm : matchCIConsume name afterAt with
      | none => rw [hm] at h; simp at h
      | some pr =>
        obtain ⟨consumed, rem'⟩ := pr
        rw [hm] at h
        dsimp only at h
        by_cases hb : boundaryOk (lastIsWord ('@' :: consumed)) rem' = true
        · rw [if_pos hb] at h
          simp only [Option.some.injEq, Prod.mk.injEq] at h
          obtain ⟨h1, h2⟩ := h
          subst h1
          subst h2
          obtain ⟨hs, hf⟩ := matchCIConsume_sound hm
          exact ⟨consumed, rfl, by rw [hs], hf, hb⟩
        · rw [if_neg hb] at h
          simp at h
    · rw [if_neg hc] at h
      simp at h

theorem mentionMatch_of_shape {name pre rest : Str}
    (hf : List.Forall₂ (fun c n => charCIEq c n = true) pre name)
    (hb : boundaryOk (lastIsWord ('@' :: pre)) rest = true) :
    mentionMatch name ('@' :: (pre ++ rest)) = some ('@' :: pre, rest) := by
  simp only [mentionMatch, matchCIConsume_of_forall2 hf, if_pos hb]
  simp

theorem bareMatch_some {name trimmed matched rem : Str}
    (h : bareMatch name trimmed = some (matched, rem)) :
    trimmed = matched ++ rem ∧
      List.Forall₂ (fun c n => charCIEq c n = true) matched name ∧
      boundaryOk (lastIsWord matched) rem = true := by
  unfold bareMatch at h
  cases hm : matchCIConsume name trimmed with
  | none => rw [hm] at h; simp at h
  | some pr =>
    obtain ⟨consumed, rem'⟩ := pr
    rw [hm] at h
    dsimp only at h
    by_cases hb : boundaryOk (lastIsWord consumed) rem' = true
    · rw [if_pos hb] at h
      simp only [Option.some.injEq, Prod.mk.injEq] at h
      obtain ⟨h1, h2⟩ := h
      subst h1
      subst h2
      obtain ⟨hs, hf⟩ := matchCIConsume_sound hm
      exact ⟨hs, hf, hb⟩
    · rw [if_neg hb] at h
      simp at h

/-- The characterization of the normalizer's output for robot names that end
in a word character and contain no replacement-substitution pattern: the
result is AT name followed by a remainder that starts with a non-word
character (or is empty), and the result is its own trim. -/
theorem mention_output_shape {r : Str} (hw : lastIsWord r = true)
    (hsub : hasSubstPattern r = false) (t : Str) :
    ∃ rest, ensureMentionPrefix t r = '@' :: (r ++ rest) ∧ headIsWord rest = false ∧
      jsTrim ('@' :: (r ++ rest)) = '@' :: (r ++ rest) := by
  have hr : r ≠ [] := lastIsWord_ne_nil hw
  obtain ⟨cl, hcl, hclw⟩ := lastIsWord_extract hw
  have hlit : ∀ matched after : Str, getSubstitution matched [] after ('@' :: r) = '@' :: r := by
    intro matched after
    refine getSubstitution_literal ?_ matched [] after
    rw [hasSubstPattern_cons_ne (by decide)]
    exact hsub
  have hclean_nil : jsTrim ('@' :: (r ++ ([] : Str))) = '@' :: (r ++ ([] : Str)) := by
    apply jsTrim_eq_self
    · intro c h
      simp only [List.head?_cons, Option.some.injEq] at h
      subst h
      decide
    · intro c h
      rw [List.append_nil] at h
      rw [show ('@' :: r : Str) = [('@' : Char)] ++ r from rfl,
        List.getLast?_append_of_ne_nil _ hr, hcl] at h
      simp only [Option.some.injEq] at h
      subst h
      exact isWordChar_not_ws hclw
  have hclean_tail : ∀ rest : Str, rest ≠ [] →
      (∀ c, rest.getLast? = some c → jsWhitespace c = false) →
      jsTrim ('@' :: (r ++ rest)) = '@' :: (r ++ rest) := by
    intro rest hne hlast
    apply jsTrim_eq_self
    · intro c h
      simp only [List.head?_cons, Option.some.injEq] at h
      subst h
      decide
    · intro c h
      rw [show ('@' :: (r ++ rest) : Str) = (('@' :: r : Str)) ++ rest from rfl,
        List.getLast?_append_of_ne_nil _ hne] at h
      exact hlast c h
  unfold ensureMentionPrefix
  rw [if_neg hr]
  by_cases ht : jsTrim t = []
  · rw [ht, if_pos rfl]
    refine ⟨[], by rw [List.append_nil], rfl, hclean_nil⟩
  · rw [if_neg ht]
    cases hm : mentionMatch r (jsTrim t) with
    | some pr =>
      obtain ⟨matched, rem⟩ := pr
      obtain ⟨consumed, hmeq, hdecomp, hf, hb⟩ := mentionMatch_some hm
      have hcne : consumed ≠ [] := by
        intro h
        subst h
        cases hf
        exact hr rfl
      have hprevw : lastIsWord ('@' :: consumed) = true := by
        rw [lastIsWord_cons_ne hcne, forall2_lastIsWord hf]
        exact hw
      have hhead : headIsWord rem = false := by
        unfold boundaryOk at hb
        rw [hprevw] at hb
        cases hh : headIsWord rem with
        | false => rfl
        | true => rw [hh] at hb; simp at hb
      refine ⟨rem, ?_, hhead, ?_⟩
      · show getSubstitution matched [] rem ('@' :: r) ++ rem = '@' :: (r ++ rem)
        rw [hlit matched rem]
        rfl
      · by_cases hrr : rem = []
        · subst hrr
          exact hclean_nil
        · refine hclean_tail rem hrr ?_
          intro c h
          have htr : (jsTrim t).getLast? = some c := by
            rw [hdecomp, show ('@' :: (consumed ++ rem) : Str) = (('@' :: consumed : Str)) ++ rem from rfl,
              List.getLast?_append_of_ne_nil _ hrr]
            exact h
          exact jsTrim_getLast htr
    | none =>
      cases hbm : bareMatch r (jsTrim t) with
      | some pr =>
        obtain ⟨matched, rem⟩ := pr
        obtain ⟨hdecomp, hf, hb⟩ := bareMatch_some hbm
        have hprevw : lastIsWord matched = true := by
          rw [forall2_lastIsWord hf]
          exact hw
        have hhead : headIsWord rem = false := by
          unfold boundaryOk at hb
          rw [hprevw] at hb
          cases hh : headIsWord rem with
          | false => rfl
          | true => rw [hh] at hb; simp at hb
        refine ⟨rem, ?_, hhead, ?_⟩
        · show getSubstitution matched [] rem ('@' :: r) ++ rem = '@' :: (r ++ rem)
          rw [hlit matched rem]
          rfl
        · by_cases hrr : rem = []
          · subst hrr
            exact hclean_nil
          · refine hclean_tail rem hrr ?_
            intro c h
            have htr : (jsTrim t).getLast? = some c := by
              rw [hdecomp, List.getLast?_append_of_ne_nil _ hrr]
              exact h
            exact jsTrim_getLast htr
      | none =>
        refine ⟨' ' :: jsTrim t, rfl, rfl, ?_⟩
        refine hclean_tail (' ' :: jsTrim t) (by simp) ?_
        intro c h
        rw [show (' ' :: jsTrim t : Str) = ([(' ' : Char)]) ++ jsTrim t from rfl,
          List.getLast?_append_of_ne_nil _ ht] at h
        exact jsTrim_getLast h

/-- Strings of the canonical output shape are fixed points of the
normalizer (for names free of substitution patterns). -/
theorem mention_output_fixed {r rest : Str} (hw : lastIsWord r = true)
    (hsub : hasSubstPattern r = false) (hhead : headIsWord rest = false)
    (hclean : jsTrim ('@' :: (r ++ rest)) = '@' :: (r ++ rest)) :
    ensureMentionPrefix ('@' :: (r ++ rest)) r = '@' :: (r ++ rest) := by
  have hr : r ≠ [] := lastIsWord_ne_nil hw
  have hb : boundaryOk (lastIsWord ('@' :: r)) rest = true := by
    rw [lastIsWord_cons_ne hr, hw, boundaryOk, hhead]
    rfl
  have hsubAt : hasSubstPattern ('@' :: r) = false := by
    rw [hasSubstPattern_cons_ne (by decide)]
    exact hsub
  unfold ensureMentionPrefix
  rw [if_neg hr, hclean, if_neg (by simp), mentionMatch_of_shape (forall2_ciEq_refl r) hb]
  dsimp only
  rw [getSubstitution_literal hsubAt]
  rfl

/-- GetSubstitution fidelity check: a robot name containing the DOLLAR
AMPERSAND substitution pattern is mangled by the replacement, exactly as the
program mangles it. -/
theorem getSubstitution_example :
    ensureMentionPrefix "@a$&b rest".data "a$&b".data = "@a@a$&bb rest".data := by
  decide

/-- String.prototype.trim is idempotent. -/
theorem jsTrim_idem (t : Str) : jsTrim (jsTrim t) = jsTrim t :=
  jsTrim_eq_self (fun _ h => jsTrim_head h) (fun _ h => jsTrim_getLast h)

/-! ### Loop lemmas for the delivery paths -/

theorem roomSendLoop_spec {J R D : Type} (pj : Str → Option J)
    (step : D → OutMessage J → SendOutcome R × D) :
    ∀ (strings : List Str) (d : D),
      (roomSendLoop pj step d strings).attempted = strings.map (classifyMessage pj) ∧
      (roomSendLoop pj step d strings).responses =
        collectResponses (runOutcomes pj step d strings) := by
  intro strings
  induction strings with
  | nil => intro d; exact ⟨rfl, rfl⟩
  | cons m rest ih =>
    intro d
    simp only [roomSendLoop, runOutcomes, List.map_cons]
    cases hstep : step d (classifyMessage pj m) with
    | mk outcome d' =>
      obtain ⟨ih1, ih2⟩ := ih d'
      cases outcome with
      | ok r =>
        cases r with
        | some resp => simpa [collectResponses] using ⟨ih1, ih2⟩
        | none => simpa [collectResponses] using ⟨ih1, ih2⟩
      | thrown s => simpa [collectResponses] using ⟨ih1, ih2⟩

theorem sendWithDelegate_eq_roomSendLoop {J R D H : Type} (pj : Str → Option J)
    (act : H → D → OutMessage J → SendOutcome R × D) (delegate : Option H) :
    ∀ (strings : List Str) (d : D),
      sendWithDelegate pj act delegate d strings =
        roomSendLoop pj (callSendActivity act delegate) d strings := by
  intro strings
  induction strings with
  | nil => intro d; rfl
  | cons m rest ih =>
    intro d
    simp only [sendWithDelegate, roomSendLoop]
    cases hstep : callSendActivity act delegate d (classifyMessage pj m) with
    | mk outcome d' =>
      cases outcome with
      | ok r =>
        cases r with
        | some resp => simp [ih d']
        | none => simp [ih d']
      | thrown s => simp [ih d']

/-- Delivering through an absent delegate handle: every per-message call
throws a TypeError, every throw is swallowed, no responses are produced and
the oracle state never moves. -/
theorem sendWithDelegate_none {J R D H : Type} (pj : Str → Option J)
    (act : H → D → OutMessage J → SendOutcome R × D) :
    ∀ (strings : List Str) (d : D),
      sendWithDelegate pj act none d strings =
        ⟨[], strings.map (classifyMessage pj), d⟩ := by
  intro strings
  induction strings with
  | nil => intro d; rfl
  | cons m rest ih =>
    intro d
    simp only [sendWithDelegate, callSendActivity, List.map_cons]
    rw [ih d]

theorem runOutcomes_length {J R D : Type} (pj : Str → Option J)
    (step : D → OutMessage J → SendOutcome R × D) :
    ∀ (strings : List Str) (d : D),
      (runOutcomes pj step d strings).length = strings.length := by
  intro strings
  induction strings with
  | nil => intro d; rfl
  | cons m rest ih =>
    intro d
    simp only [runOutcomes, List.length_cons]
    cases hstep : step d (classifyMessage pj m) with
    | mk outcome d' => simp [ih d']

/-! ### Claim theorems -/

/-- C1: every message string on which JSON.parse succeeds is classified as a
single adaptive-card attachment, never as markdown or XML text, and every
delivery loop (sendWithDelegate, used by send and reply, and the sendToRoom
cache-hit loop) delivers exactly the classified form of each string. -/
theorem json_parse_always_card_attachment {J : Type} (pj : Str → Option J)
    (m : Str) (c : J) (h : pj m = some c) :
    classifyMessage pj m = .attachments [adaptiveCard c] ∧
    (∀ s fmt, classifyMessage pj m ≠ OutMessage.text s fmt) ∧
    (∀ (R D H : Type) (act : H → D → OutMessage J → SendOutcome R × D)
      (delegate : Option H) (step : D → OutMessage J → SendOutcome R × D)
      (d : D) (strings : List Str),
      (sendWithDelegate pj act delegate d strings).attempted =
        strings.map (classifyMessage pj) ∧
      (roomSendLoop pj step d strings).attempted = strings.map (classifyMessage pj)) := by
  have hcl : classifyMessage pj m = .attachments [adaptiveCard c] := by
    simp [classifyMessage, h]
  refine ⟨hcl, ?_, ?_⟩
  · intro s fmt hcontra
    rw [hcl] at hcontra
    exact OutMessage.noConfusion hcontra
  · intro R D H act delegate step d strings
    refine ⟨?_, (roomSendLoop_spec pj step strings d).1⟩
    rw [sendWithDelegate_eq_roomSendLoop]
    exact (roomSendLoop_spec pj (callSendActivity act delegate) strings d).1

/-- C1 witness: a string that is valid JSON and also contains a closing tag is
still delivered as a card attachment. -/
theorem json_parse_always_card_attachment_witness :
    classifyMessage (fun s => if s = "\"</b>\"".data then some () else none) "\"</b>\"".data =
      .attachments [adaptiveCard ()] :=
  (json_parse_always_card_attachment (fun s => if s = "\"</b>\"".data then some () else none)
    "\"</b>\"".data () (by simp)).1

/-- C2: a message string on which JSON.parse fails is classified as text,
markdown by default, upgraded to XML exactly when the string contains a
closing-tag-shaped substring. -/
theorem non_json_text_classification {J : Type} (pj : Str → Option J) (m : Str)
    (h : pj m = none) :
    classifyMessage pj m =
      .text m (some (if hasClosingTag m then TextFormat.xml else TextFormat.markdown)) ∧
    (classifyMessage pj m = OutMessage.text m (some TextFormat.xml) ↔ ClosingTagShaped m) ∧
    (¬ ClosingTagShaped m → classifyMessage pj m = .text m (some TextFormat.markdown)) := by
  have hcl : classifyMessage pj m =
      .text m (some (if hasClosingTag m then TextFormat.xml else TextFormat.markdown)) := by
    simp [classifyMessage, h]
  refine ⟨hcl, ?_, ?_⟩
  · rw [hcl]
    by_cases hct : hasClosingTag m = true
    · rw [if_pos hct]
      simp [(hasClosingTag_iff m).1 hct]
    · rw [if_neg hct]
      constructor
      · intro hcontra
        simp at hcontra
      · intro hshape
        exact absurd ((hasClosingTag_iff m).2 hshape) hct
  · intro hnotshape
    rw [hcl]
    have hct : hasClosingTag m = false := by
      cases hc : hasClosingTag m with
      | false => rfl
      | true => exact absurd ((hasClosingTag_iff m).1 hc) hnotshape
    rw [hct]
    simp

/-- C2 witness: a closing-tag string that is not JSON goes out as XML text, a
plain string as markdown text. -/
theorem non_json_text_classification_witness :
    classifyMessage (fun _ => (none : Option Unit)) "<b>hi</b>".data =
      .text "<b>hi</b>".data (some TextFormat.xml) ∧
    classifyMessage (fun _ => (none : Option Unit)) "hello".data =
      .text "hello".data (some TextFormat.markdown) :=
  ⟨((non_json_text_classification (fun _ => (none : Option Unit)) "<b>hi</b>".data rfl).1).trans
      (by decide),
   ((non_json_text_classification (fun _ => (none : Option Unit)) "hello".data rfl).1).trans
      (by decide)⟩

/-- C3: in both delivery loops every string is attempted in order regardless
of earlier failures, failures are swallowed, and the returned results array
holds exactly the truthy responses of the successful sends; in particular
with three messages and a platform that throws on the second call, the
results of the first and third calls are still returned. -/
theorem per_message_failures_swallowed {J R D H : Type} (pj : Str → Option J)
    (step : D → OutMessage J → SendOutcome R × D)
    (act : H → D → OutMessage J → SendOutcome R × D) (delegate : Option H)
    (d : D) (strings : List Str) :
    (roomSendLoop pj step d strings).attempted = strings.map (classifyMessage pj) ∧
    (roomSendLoop pj step d strings).responses =
      collectResponses (runOutcomes pj step d strings) ∧
    (sendWithDelegate pj act delegate d strings).attempted =
      strings.map (classifyMessage pj) ∧
    (sendWithDelegate pj act delegate d strings).responses =
      collectResponses (runOutcomes pj (callSendActivity act delegate) d strings) ∧
    (runOutcomes pj step d strings).length = strings.length ∧
    (∀ (r1 r3 : R) (m1 m2 m3 : Str),
      (roomSendLoop pj
        (fun (n : Nat) _ =>
          (if n = 1 then SendOutcome.thrown (some 500)
           else SendOutcome.ok (some (if n = 0 then r1 else r3)), n + 1))
        0 [m1, m2, m3]).responses = [r1, r3]) := by
  obtain ⟨h1, h2⟩ := roomSendLoop_spec pj step strings d
  obtain ⟨h3, h4⟩ := roomSendLoop_spec pj (callSendActivity act delegate) strings d
  refine ⟨h1, h2, ?_, ?_, runOutcomes_length pj step strings d, ?_⟩
  · rw [sendWithDelegate_eq_roomSendLoop]
    exact h3
  · rw [sendWithDelegate_eq_roomSendLoop]
    exact h4
  · intro r1 r3 m1 m2 m3
    rfl

/-- C4: a sendToRoom call for a room with no cache entry creates a proactive
conversation whose initial activity is the joined message text and returns the
empty result list; the creation callback upserts the new conversation's
reference into the cache and sends the joined text; once the callback has run
for the room's conversation id, a second sendToRoom call for the same room
finds the cached reference and returns the one delivered-message result. -/
theorem room_cache_miss_then_hit {J R C D : Type} (cfg : TeamsConfig)
    (pj : Str → Option J) (roomStep : D → OutMessage J → SendOutcome R × D)
    (d d' : D) (st : AdapterState C) (room : Room) (strings : List Str)
    (tc : CreatedTurnCtx C) (m : Str) (resp : R)
    (h1 : st.conversationReferences room.channelData.channel.id = none)
    (h2 : tc.conversationId = room.channelData.channel.id)
    (h3 : roomStep d (classifyMessage pj m) = (.ok (some resp), d')) :
    sendToRoom cfg pj roomStep d st room strings =
      .created
        ⟨true, cfg.appId, cfg.robotName, effectiveServiceUrl cfg, room.channelData,
          messageFactoryText (joinNl strings), cfg.tenantId⟩
        (onConversationCreated strings) [] ∧
    (onConversationCreated strings tc st).1.conversationReferences tc.conversationId =
      some tc.conversation ∧
    (onConversationCreated strings tc st).2 = joinNl strings ∧
    sendToRoom cfg pj roomStep d (onConversationCreated strings tc st).1 room [m] =
      .resumed tc.conversation ⟨[resp], [classifyMessage pj m], d'⟩ (.send, [resp]) := by
  refine ⟨?_, ?_, rfl, ?_⟩
  · unfold sendToRoom
    rw [h1]
  · simp [onConversationCreated, cacheUpsert]
  · have hlook : (onConversationCreated strings tc st).1.conversationReferences
        room.channelData.channel.id = some tc.conversation := by
      simp [onConversationCreated, cacheUpsert, h2]
    have hloop : roomSendLoop pj roomStep d [m] =
        ⟨[resp], [classifyMessage pj m], d'⟩ := by
      simp only [roomSendLoop, h3]
    unfold sendToRoom
    rw [hlook, hloop]

/-- C4 witness: the concrete two-call scenario with a new room. -/
theorem room_cache_miss_then_hit_witness :
    sendToRoom (J := Unit) (R := Nat) (C := Nat) (D := Unit) ⟨[], [], [], []⟩
        (fun _ => none) (fun _ _ => (.ok (some 7), ())) ()
        (onConversationCreated ["hi".data] ⟨"general".data, 42⟩ ⟨fun _ => none⟩).1
        ⟨⟨⟨"general".data⟩⟩⟩ ["again".data] =
      .resumed 42 ⟨[7], [classifyMessage (fun _ => none) "again".data], ()⟩ (.send, [7]) :=
  (room_cache_miss_then_hit ⟨[], [], [], []⟩ (fun _ => none) (fun _ _ => (.ok (some 7), ()))
    () () ⟨fun _ => none⟩ ⟨⟨⟨"general".data⟩⟩⟩ ["hi".data] ⟨"general".data, 42⟩
    "again".data 7 rfl rfl rfl).2.2.2

/-- C7: send delegates to sendToRoom exactly when the envelope has a room and
no user; with a user present it delivers every string on the user's live
message handle via sendWithDelegate and emits a send event carrying the
envelope and the results; with neither room nor user it throws. -/
theorem send_routing {J R C D H : Type} (cfg : TeamsConfig) (pj : Str → Option J)
    (act : H → D → OutMessage J → SendOutcome R × D)
    (roomStep : D → OutMessage J → SendOutcome R × D) (d : D) (st : AdapterState C)
    (envelope : Envelope H) (strings : List Str) :
    (∀ room, envelope.room = some room → envelope.user = none →
      send cfg pj act roomStep d st envelope strings =
        .roomPath (sendToRoom cfg pj roomStep d st room strings)) ∧
    (∀ user, envelope.user = some user →
      send cfg pj act roomStep d st envelope strings =
        .direct (sendWithDelegate pj act user.message d strings)
          (.send, envelope, (sendWithDelegate pj act user.message d strings).responses)) ∧
    (envelope.room = none → envelope.user = none →
      send cfg pj act roomStep d st envelope strings = .userAccessError) := by
  obtain ⟨eroom, euser⟩ := envelope
  refine ⟨?_, ?_, ?_⟩
  · intro room hroom huser
    cases eroom with
    | none => simp at hroom
    | some rm =>
      simp only [Option.some.injEq] at hroom
      subst hroom
      subst huser
      rfl
  · intro user huser
    cases euser with
    | none => simp at huser
    | some u =>
      simp only [Option.some.injEq] at huser
      subst huser
      cases eroom with
      | none => rfl
      | some rm => rfl
  · intro hroom huser
    subst hroom
    subst huser
    rfl

/-- C7 witness: a room-only envelope goes down the room path. -/
theorem send_routing_witness :
    send (J := Unit) (R := Unit) (C := Unit) (D := Unit) (H := Unit) ⟨[], [], [], []⟩
        (fun _ => none) (fun _ d _ => (.ok none, d)) (fun d _ => (.ok none, d)) ()
        ⟨fun _ => none⟩ ⟨some ⟨⟨⟨"r".data⟩⟩⟩, none⟩ [] =
      .roomPath (sendToRoom ⟨[], [], [], []⟩ (fun _ => none) (fun d _ => (.ok none, d)) ()
        ⟨fun _ => none⟩ ⟨⟨⟨"r".data⟩⟩⟩ []) :=
  (send_routing ⟨[], [], [], []⟩ (fun _ => none) (fun _ d _ => (.ok none, d))
    (fun d _ => (.ok none, d)) () ⟨fun _ => none⟩ ⟨some ⟨⟨⟨"r".data⟩⟩⟩, none⟩ []).1
    ⟨⟨⟨"r".data⟩⟩⟩ rfl rfl

/-- C8: whenever the ingress endpoint reaches the registered activity handler,
the handler is invoked on a cache state into which the conversation reference
extracted from the turn has already been upserted under the activity's
conversation id. -/
theorem conversation_reference_upserted_before_handler {B C E : Type}
    (normalize : B → B) (processAuth : B → Except E InboundActivity)
    (getConvRef : InboundActivity → C)
    (handlerRun : AdapterState C → InboundActivity → Except E (AdapterState C))
    (st : AdapterState C) (body : B) (activity : InboundActivity)
    (h : processAuth (normalize body) = .ok activity) :
    (postEndpoint normalize processAuth getConvRef handlerRun st body).handlerCalledWith =
      some (cacheUpsert st activity.conversation.id (getConvRef activity), activity) ∧
    (cacheUpsert st activity.conversation.id (getConvRef activity)).conversationReferences
        activity.conversation.id = some (getConvRef activity) := by
  constructor
  · unfold postEndpoint
    dsimp only
    rw [h]
    dsimp only
    cases hh : handlerRun (cacheUpsert st activity.conversation.id (getConvRef activity))
        activity with
    | error e => rfl
    | ok st'' => rfl
  · simp [cacheUpsert]

/-- C8 witness. -/
theorem conversation_reference_upserted_before_handler_witness :
    (postEndpoint (B := Unit) (C := Nat) (E := Unit) id
        (fun _ => .ok ⟨⟨"conv1".data⟩⟩) (fun _ => 5) (fun st _ => .ok st)
        ⟨fun _ => none⟩ ()).handlerCalledWith =
      some (cacheUpsert ⟨fun _ => none⟩ "conv1".data 5, ⟨⟨"conv1".data⟩⟩) :=
  (conversation_reference_upserted_before_handler id (fun _ => .ok ⟨⟨"conv1".data⟩⟩)
    (fun _ => 5) (fun st _ => .ok st) ⟨fun _ => none⟩ () ⟨⟨"conv1".data⟩⟩ rfl).1

/-- C9: a POST to the ingress endpoint answers 200 ok exactly when the
platform turn pipeline and the activity handler both complete without an
exception, and answers 500 service error in every other case. -/
theorem ingress_response_codes {B C E : Type} (normalize : B → B)
    (processAuth : B → Except E InboundActivity) (getConvRef : InboundActivity → C)
    (handlerRun : AdapterState C → InboundActivity → Except E (AdapterState C))
    (st : AdapterState C) (body : B) :
    ((postEndpoint normalize processAuth getConvRef handlerRun st body).response =
        ⟨200, "ok"⟩ ∨
      (postEndpoint normalize processAuth getConvRef handlerRun st body).response =
        ⟨500, "service error"⟩) ∧
    ((postEndpoint normalize processAuth getConvRef handlerRun st body).response =
        ⟨200, "ok"⟩ ↔
      ∃ activity st', processAuth (normalize body) = .ok activity ∧
        handlerRun (cacheUpsert st activity.conversation.id (getConvRef activity))
          activity = .ok st') := by
  cases hp : processAuth (normalize body) with
  | error e =>
    have hres : (postEndpoint normalize processAuth getConvRef handlerRun st body).response =
        ⟨500, "service error"⟩ := by
      unfold postEndpoint
      dsimp only
      rw [hp]
    refine ⟨Or.inr hres, ?_⟩
    rw [hres]
    constructor
    · intro hcontra
      simp at hcontra
    · rintro ⟨activity, st', hok, -⟩
      exact Except.noConfusion hok
  | ok activity =>
    cases hh : handlerRun (cacheUpsert st activity.conversation.id (getConvRef activity))
        activity with
    | error e =>
      have hres : (postEndpoint normalize processAuth getConvRef handlerRun st body).response =
          ⟨500, "service error"⟩ := by
        unfold postEndpoint
        dsimp only
        rw [hp]
        dsimp only
        rw [hh]
      refine ⟨Or.inr hres, ?_⟩
      rw [hres]
      constructor
      · intro hcontra
        simp at hcontra
      · rintro ⟨activity', st', hok, hok2⟩
        simp only [Except.ok.injEq] at hok
        subst hok
        rw [hh] at hok2
        exact Except.noConfusion hok2
    | ok st'' =>
      have hres : (postEndpoint normalize processAuth getConvRef handlerRun st body).response =
          ⟨200, "ok"⟩ := by
        unfold postEndpoint
        dsimp only
        rw [hp]
        dsimp only
        rw [hh]
      refine ⟨Or.inl hres, ?_⟩
      rw [hres]
      constructor
      · intro _
        exact ⟨activity, st'', rfl, hh⟩
      · intro _
        rfl

/-- C9 witness: a concrete request on which processing succeeds end to end. -/
theorem ingress_response_codes_witness :
    (postEndpoint (B := Unit) (C := Nat) (E := Unit) id
        (fun _ => .ok ⟨⟨"conv1".data⟩⟩) (fun _ => 5) (fun _ _ => .error ())
        ⟨fun _ => none⟩ ()).response = ⟨200, "ok"⟩ ∨
    (postEndpoint (B := Unit) (C := Nat) (E := Unit) id
        (fun _ => .ok ⟨⟨"conv1".data⟩⟩) (fun _ => 5) (fun _ _ => .error ())
        ⟨fun _ => none⟩ ()).response = ⟨500, "service error"⟩ :=
  (ingress_response_codes id (fun _ => .ok ⟨⟨"conv1".data⟩⟩) (fun _ => 5)
    (fun _ _ => .error ()) ⟨fun _ => none⟩ ()).1

/-- C10 (amended): reply throws before any delivery attempt exactly when the
envelope's user is absent; a user that is present but lacks a message handle
does not make reply throw: each delivery is attempted against the missing
handle, each resulting TypeError is swallowed, and reply returns the empty
results array; and unlike send there is no room-only fallback path. -/
theorem reply_user_dereference_amended {J R C D H : Type} (cfg : TeamsConfig)
    (pj : Str → Option J) (act : H → D → OutMessage J → SendOutcome R × D)
    (roomStep : D → OutMessage J → SendOutcome R × D) (d : D) (st : AdapterState C)
    (envelope : Envelope H) (strings : List Str) :
    (envelope.user = none →
      reply pj act d envelope strings = .error .userUndefined) ∧
    (∀ user, envelope.user = some user → user.message = none →
      reply pj act d envelope strings =
        .ok (⟨[], strings.map (classifyMessage pj), d⟩, (.reply, envelope, []))) ∧
    (∀ room, envelope.room = some room → envelope.user = none →
      reply pj act d envelope strings = .error .userUndefined ∧
      send cfg pj act roomStep d st envelope strings =
        .roomPath (sendToRoom cfg pj roomStep d st room strings)) := by
  refine ⟨?_, ?_, ?_⟩
  · intro huser
    unfold reply
    rw [huser]
  · intro user huser hmsg
    have hstep : reply pj act d envelope strings =
        .ok (sendWithDelegate pj act user.message d strings,
          (EventName.reply, envelope,
            (sendWithDelegate pj act user.message d strings).responses)) := by
      unfold reply
      rw [huser]
    rw [hstep, hmsg, sendWithDelegate_none]
  · intro room hroom huser
    refine ⟨?_, ?_⟩
    · unfold reply
      rw [huser]
    · unfold send
      rw [hroom, huser]

/-- C10 witness: reply on a room-only envelope throws while send delegates to
the room path. -/
theorem reply_user_dereference_amended_witness :
    reply (J := Unit) (R := Unit) (D := Unit) (H := Unit) (fun _ => none)
        (fun _ d _ => (.ok none, d)) () ⟨some ⟨⟨⟨"r".data⟩⟩⟩, none⟩ ["hi".data] =
      .error .userUndefined :=
  ((reply_user_dereference_amended (C := Unit) ⟨[], [], [], []⟩ (fun _ => none)
    (fun _ d _ => (.ok none, d)) (fun d _ => (.ok none, d)) () ⟨fun _ => none⟩
    ⟨some ⟨⟨⟨"r".data⟩⟩⟩, none⟩ ["hi".data]).2.2 ⟨⟨⟨"r".data⟩⟩⟩ rfl rfl).1

/-- C10 counterexample: an envelope whose user is present but lacks a message
handle does not make reply throw: the delivery is attempted (and swallowed)
and reply returns ok with an empty results array, refuting the claim that
reply throws before any delivery is attempted for such envelopes. -/
theorem reply_missing_user_counterexample :
    reply (J := Unit) (R := Unit) (D := Unit) (H := Unit) (fun _ => none)
        (fun _ d _ => (.ok none, d)) () ⟨none, some ⟨none⟩⟩ ["hi".data] =
      .ok (⟨[], [OutMessage.text "hi".data (some TextFormat.markdown)], ()⟩,
        (.reply, ⟨none, some ⟨none⟩⟩, [])) ∧
    reply (J := Unit) (R := Unit) (D := Unit) (H := Unit) (fun _ => none)
        (fun _ d _ => (.ok none, d)) () ⟨none, some ⟨none⟩⟩ ["hi".data] ≠
      .error .userUndefined := by
  constructor
  · rfl
  · intro h
    rw [show reply (J := Unit) (R := Unit) (D := Unit) (H := Unit) (fun _ => none)
        (fun _ d _ => (.ok none, d)) () ⟨none, some ⟨none⟩⟩ ["hi".data] =
      .ok (⟨[], [OutMessage.text "hi".data (some TextFormat.markdown)], ()⟩,
        (.reply, ⟨none, some ⟨none⟩⟩, [])) from rfl] at h
    exact Except.noConfusion h

/-- C5 counterexample: for the non-falsy robot name bot! (which ends in a
non-word character) and input hello, the trimmed output neither equals AT
bot! nor starts with AT bot! followed by a word boundary, refuting the claim
as stated for all non-falsy robot names. -/
theorem mention_normalizer_shape_counterexample :
    ¬ (jsTrim ( ensureMentionPrefix "hello".data "bot!".data) = '@' :: "bot!".data ∨
      ∃ rest, jsTrim ( ensureMentionPrefix "hello".data "bot!".data) =
          '@' :: ("bot!".data ++ rest) ∧
        boundaryOk (lastIsWord ('@' :: "bot!".data)) rest = true) := by
  intro h
  have hv : jsTrim ( ensureMentionPrefix "hello".data "bot!".data) =
      '@' :: ("bot!".data ++ " hello".data) := by decide
  rcases h with h | ⟨rest, heq, hb⟩
  · rw [hv] at h
    exact absurd h (by decide)
  · rw [hv] at heq
    have h2 := List.cons.inj heq
    have h3 : " hello".data = rest := List.append_cancel_left h2.2
    rw [← h3] at hb
    exact absurd hb (by decide)

/-- C5 (amended): for every robot name that ends in a word character and
contains no replacement-substitution pattern (DOLLAR DOLLAR, DOLLAR
AMPERSAND, DOLLAR BACKTICK, DOLLAR QUOTE), and every input, the normalizer's
output is its own trim and either equals AT name or starts with AT name
followed by a word boundary; an input already starting with a case-variant of
AT name at a word boundary has exactly that prefix canonicalized and the rest
untouched. -/
theorem mention_normalizer_shape_amended {r : Str} (hw : lastIsWord r = true)
    (hsub : hasSubstPattern r = false) (t : Str) :
    jsTrim ( ensureMentionPrefix t r) = ensureMentionPrefix t r ∧
    ( ensureMentionPrefix t r = '@' :: r ∨
      ∃ rest, rest ≠ [] ∧ ensureMentionPrefix t r = '@' :: (r ++ rest) ∧
        boundaryOk (lastIsWord ('@' :: r)) rest = true) ∧
    (∀ pre rest, jsTrim t = '@' :: (pre ++ rest) →
      List.Forall₂ (fun c n => charCIEq c n = true) pre r →
      boundaryOk (lastIsWord ('@' :: pre)) rest = true →
      ensureMentionPrefix t r = '@' :: (r ++ rest)) := by
  obtain ⟨rest, ho, hh, hc⟩ := mention_output_shape hw hsub t
  have hr : r ≠ [] := lastIsWord_ne_nil hw
  have hsubAt : hasSubstPattern ('@' :: r) = false := by
    rw [hasSubstPattern_cons_ne (by decide)]
    exact hsub
  refine ⟨?_, ?_, ?_⟩
  · rw [ho]
    exact hc
  · by_cases hrr : rest = []
    · subst hrr
      left
      rw [ho, List.append_nil]
    · right
      refine ⟨rest, hrr, ho, ?_⟩
      rw [lastIsWord_cons_ne hr, hw]
      unfold boundaryOk
      rw [hh]
      rfl
  · intro pre rest2 htr hf hb
    unfold ensureMentionPrefix
    rw [if_neg hr, htr, if_neg (by simp), mentionMatch_of_shape hf hb]
    dsimp only
    rw [getSubstitution_literal hsubAt]
    rfl

/-- C5 witness. -/
theorem mention_normalizer_shape_amended_witness :
    lastIsWord "bot".data = true ∧ hasSubstPattern "bot".data = false ∧
    jsTrim ( ensureMentionPrefix "@BOT hi".data "bot".data) =
      ensureMentionPrefix "@BOT hi".data "bot".data :=
  ⟨by decide, by decide,
    (mention_normalizer_shape_amended (by decide) (by decide) "@BOT hi".data).1⟩

/-- C6 counterexample: with the robot name bot! the normalizer is not
idempotent: re-feeding the output prepends the mention again. -/
theorem mention_normalizer_idempotent_counterexample :
    ensureMentionPrefix ( ensureMentionPrefix "hello".data "bot!".data) "bot!".data ≠
      ensureMentionPrefix "hello".data "bot!".data := by
  decide

/-- C6 (amended): the mention normalizer is idempotent for every robot name
that is falsy, or that ends in a word character and contains no
replacement-substitution pattern (DOLLAR DOLLAR, DOLLAR AMPERSAND, DOLLAR
BACKTICK, DOLLAR QUOTE). -/
theorem mention_normalizer_idempotent_amended {r : Str}
    (hw : r = [] ∨ (lastIsWord r = true ∧ hasSubstPattern r = false)) (t : Str) :
    ensureMentionPrefix ( ensureMentionPrefix t r) r = ensureMentionPrefix t r := by
  cases hw with
  | inl h =>
    subst h
    rw [show ensureMentionPrefix t [] = jsTrim t from by
        unfold ensureMentionPrefix
        rw [if_pos rfl],
      show ensureMentionPrefix (jsTrim t) [] = jsTrim (jsTrim t) from by
        unfold ensureMentionPrefix
        rw [if_pos rfl]]
    exact jsTrim_idem t
  | inr hw =>
    obtain ⟨hw, hsub⟩ := hw
    obtain ⟨rest, ho, hh, hc⟩ := mention_output_shape hw hsub t
    rw [ho]
    exact mention_output_fixed hw hsub hh hc

/-- C6 witness. -/
theorem mention_normalizer_idempotent_amended_witness :
    ensureMentionPrefix ( ensureMentionPrefix "hello".data "bot".data) "bot".data =
      ensureMentionPrefix "hello".data "bot".data :=
  mention_normalizer_idempotent_amended (Or.inr ⟨by decide, by decide⟩) "hello".data
